import Mathlib

/-!
# Auction: bid commitment and incremental ranking

A shallow embedding of `src/auction.c`: the shared structure `auctionInfo`, the
ranking routines `updateRanking`, `insertionSort` and `sortHelper`, the bidder
thread `bidding` (statement by statement) and the coordinator loop
`startAuction`, followed by the properties of the ranking subsystem.

Conventions.
* C arrays are total maps from an index to a value; a write is `Function.update`.
* `int` values are integers; no arithmetic on them can overflow here except the
  conversion of a `time_t` to `int`, which is modelled by `toInt`.
* `time_t` is the 64-bit signed type of the usual Linux targets, so a `time_t`
  value is an integer that need not fit in an `int`.
* C truth values are integers: `FALSE` is `0`, `TRUE` is `1`, and a test reads
  "different from 0".
-/

namespace Auction

/-! ## Data model -/

/-- Macro `FALSE` of the source. -/
def FALSE : Int := 0

/-- Macro `TRUE` of the source. -/
def TRUE : Int := 1

/-- Conversion of a `time_t` to `int`, as in `int keyBidTime = auctionInfo.rankedTime[i];`:
the value is reduced modulo `2^32` into the range `[-2^31, 2^31)`. -/
def toInt (t : Int) : Int := (t + 2147483648) % 4294967296 - 2147483648

/-- The structure `struct shared` (without the thread handles `bidders`). -/
structure Shared where
  bidsPerBidder : Int
  maxBidValue : Int
  maxSleepTime : Int
  auctionFinished : Int
  isRanked : Nat → Int
  ranking : Nat → Int
  rankedBidders : Nat → Int
  rankedTime : Nat → Int
  rankedBidCount : Nat → Int
  bid : Nat → Int
  committed : Nat → Int
  bidTime : Nat → Int
  bidCount : Nat → Int

/-- Function `initializeAuction`: stores the configuration and fills the first
`numOfBidders` cells of the per-bidder arrays; the freshly allocated buffers keep
whatever they held (`s`). -/
def initializeAuction (numOfBidders : Nat) (bidsPerBidder maxBidValue maxSleepTime : Int)
    (s : Shared) : Shared :=
  { s with
    bidsPerBidder := bidsPerBidder
    maxBidValue := maxBidValue
    maxSleepTime := maxSleepTime
    auctionFinished := FALSE
    isRanked := fun i => if i < numOfBidders then FALSE else s.isRanked i
    bid := fun i => if i < numOfBidders then 0 else s.bid i
    committed := fun i => if i < numOfBidders then FALSE else s.committed i
    bidTime := fun i => if i < numOfBidders then -1 else s.bidTime i
    bidCount := fun i => if i < numOfBidders then 0 else s.bidCount i }

/-! ## Ranking: `updateRanking`, `sortHelper`, `insertionSort` -/

/-- Function `updateRanking`: the buffers grow to `rankingSize` cells and the
snapshot of bidder `bidderNumber` is stored in cell `rankingSize - 1`. -/
def updateRanking (rankingSize : Nat) (bidderNumber : Nat) (s : Shared) : Shared :=
  { s with
    ranking := Function.update s.ranking (rankingSize - 1) (s.bid bidderNumber)
    rankedBidders := Function.update s.rankedBidders (rankingSize - 1) (bidderNumber : Int)
    rankedTime := Function.update s.rankedTime (rankingSize - 1) (s.bidTime bidderNumber)
    isRanked := Function.update s.isRanked bidderNumber TRUE
    rankedBidCount := Function.update s.rankedBidCount (rankingSize - 1) (s.bidCount bidderNumber) }

/-- Function `sortHelper`: writes one tuple into cell `newIndex + 1` of the four
ranking arrays. -/
def sortHelper (newIndex : Int) (bid bidder time bidCount : Int) (s : Shared) : Shared :=
  { s with
    ranking := Function.update s.ranking (newIndex + 1).toNat bid
    rankedBidders := Function.update s.rankedBidders (newIndex + 1).toNat bidder
    rankedTime := Function.update s.rankedTime (newIndex + 1).toNat time
    rankedBidCount := Function.update s.rankedBidCount (newIndex + 1).toNat bidCount }

/-- The `while` loop of `insertionSort`. The loop variable `j` runs from `i - 1`
down to `-1`; the argument and the first component of the result are `j + 1`, so
that `j >= 0` reads "the argument is a successor". -/
def shiftLoop (keyBid keyBidTime : Int) : Nat → Shared → Nat × Shared
  | 0, s => (0, s)
  | j + 1, s =>
    if s.ranking j ≤ keyBid then
      if s.ranking j = keyBid ∧ s.rankedTime j ≤ keyBidTime then (j + 1, s)
      else
        shiftLoop keyBid keyBidTime j
          (sortHelper j (s.ranking j) (s.rankedBidders j) (s.rankedTime j) (s.rankedBidCount j) s)
    else (j + 1, s)

/-- Body of the `for` loop of `insertionSort` at index `i`. The key's time is
held in an `int`. -/
def insertionSortBody (s : Shared) (i : Nat) : Shared :=
  let keyBid := s.ranking i
  let keyBidTime := toInt (s.rankedTime i)
  let keyBidder := s.rankedBidders i
  let keyBidCount := s.rankedBidCount i
  let r := shiftLoop keyBid keyBidTime i s
  sortHelper ((r.1 : Int) - 1) keyBid keyBidder keyBidTime keyBidCount r.2

/-- Function `insertionSort`: `for (i = 1; i < rankingSize; i++)`. -/
def insertionSort (rankingSize : Nat) (s : Shared) : Shared :=
  (List.range' 1 (rankingSize - 1)).foldl insertionSortBody s

/-- One ranking entry: the tuple held at one index of the four parallel arrays. -/
structure Entry where
  bid : Int
  bidder : Int
  time : Int
  bidCount : Int
deriving DecidableEq, Repr

/-- The tuple at index `k` of the ranking arrays. -/
def entryAt (s : Shared) (k : Nat) : Entry :=
  ⟨s.ranking k, s.rankedBidders k, s.rankedTime k, s.rankedBidCount k⟩

/-- The ranking sequence: the tuples at indices `0 .. n-1`. -/
def entries (s : Shared) (n : Nat) : List Entry :=
  (List.range n).map (entryAt s)

/-- The order between adjacent ranking entries: `a` may stand directly before `b`. -/
def rankedBefore (a b : Entry) : Prop :=
  a.bid > b.bid ∨ (a.bid = b.bid ∧ a.time ≤ b.time)

instance (a b : Entry) : Decidable (rankedBefore a b) := by
  unfold rankedBefore; infer_instance

/-! ## Insertions into the ranking -/

/-- What a bidder has committed when the coordinator ranks it: its number and the
contents of its cells of `bid`, `bidTime` and `bidCount`. -/
structure Commit where
  bidderNumber : Nat
  bid : Int
  time : Int
  bidCount : Int
deriving DecidableEq, Repr

/-- The ranking entry that `updateRanking` stores for a commit. -/
def Commit.entry (c : Commit) : Entry :=
  ⟨c.bid, (c.bidderNumber : Int), c.time, c.bidCount⟩

/-- The writes of the bidder thread that the coordinator sees when it ranks the
bidder of `c`. -/
def commitBid (c : Commit) (s : Shared) : Shared :=
  { s with
    bid := Function.update s.bid c.bidderNumber c.bid
    committed := Function.update s.committed c.bidderNumber TRUE
    bidTime := Function.update s.bidTime c.bidderNumber c.time
    bidCount := Function.update s.bidCount c.bidderNumber c.bidCount }

/-- One insertion, as `startAuction` does it: `rankingSize++`,
`updateRanking(rankingSize, i)`, then `insertionSort(rankingSize)`. The state is
the shared structure together with the local `rankingSize`. -/
def insertCommit (r : Shared × Nat) (c : Commit) : Shared × Nat :=
  let rankingSize := r.2 + 1
  (insertionSort rankingSize (updateRanking rankingSize c.bidderNumber (commitBid c r.1)),
    rankingSize)

/-- A sequence of insertions, starting from the empty ranking. -/
def insertAll (s : Shared) (l : List Commit) : Shared × Nat :=
  l.foldl insertCommit (s, 0)

/-- The ranking sequence after inserting the commits of `l` in list order. -/
def rankingAfter (s : Shared) (l : List Commit) : List Entry :=
  entries (insertAll s l).1 (insertAll s l).2

/-- Following the spec's words (testable property 4): the entries sorted once from
scratch by bid descending, then commit time ascending, entries equal in both keeping
their list order (a stable sort). -/
def sortFromScratch (l : List Entry) : List Entry :=
  List.insertionSort rankedBefore l

/-! ## The bidder thread `bidding`, statement by statement -/

/-- Program points of `bidding`: the statement that is executed next. -/
inductive Pc where
  | whileTest
  | sleep
  | tempBid
  | draw
  | setCommitted
  | countBid
  | ifForced
  | forcedBid
  | forcedCommit
  | forcedCount
  | recordTime
  | exited
deriving DecidableEq, Repr

/-- A bidder thread: its program point, its local `isCommitted`, the number of
calls of `rand()` it has made, and the shared memory. -/
structure Bidder where
  pc : Pc
  isCommitted : Int
  randCalls : Nat
  mem : Shared

/-- One statement of `bidding(id)`. The function `rand` gives the result of the
k-th call of `rand()` of this thread (never negative), `now` is the result of
`time()`. -/
def bidStep (rand : Nat → Nat) (now : Int) (id : Nat) (b : Bidder) : Bidder :=
  match b.pc with
  | .whileTest =>
    if b.mem.bidCount id < b.mem.bidsPerBidder - 1 ∧ b.mem.committed id = 0 then
      { b with pc := .sleep }
    else { b with pc := .ifForced }
  | .sleep =>
    -- int seconds = rand() % maxSleepTime; sleep(seconds);
    { b with pc := .tempBid, randCalls := b.randCalls + 1 }
  | .tempBid =>
    { b with
      pc := .draw
      randCalls := b.randCalls + 1
      mem := { b.mem with
        bid := Function.update b.mem.bid id (Int.tmod (rand b.randCalls) b.mem.maxBidValue) } }
  | .draw =>
    { b with
      pc := .setCommitted
      randCalls := b.randCalls + 1
      isCommitted := Int.tmod (rand b.randCalls) 2 }
  | .setCommitted =>
    { b with
      pc := .countBid
      mem := { b.mem with committed := Function.update b.mem.committed id b.isCommitted } }
  | .countBid =>
    { b with
      pc := .whileTest
      mem := { b.mem with bidCount := Function.update b.mem.bidCount id (b.mem.bidCount id + 1) } }
  | .ifForced =>
    if b.mem.committed id = 0 then { b with pc := .forcedBid } else { b with pc := .recordTime }
  | .forcedBid =>
    { b with
      pc := .forcedCommit
      randCalls := b.randCalls + 1
      mem := { b.mem with
        bid := Function.update b.mem.bid id (Int.tmod (rand b.randCalls) b.mem.maxBidValue) } }
  | .forcedCommit =>
    { b with
      pc := .forcedCount
      mem := { b.mem with committed := Function.update b.mem.committed id TRUE } }
  | .forcedCount =>
    { b with
      pc := .recordTime
      mem := { b.mem with bidCount := Function.update b.mem.bidCount id (b.mem.bidCount id + 1) } }
  | .recordTime =>
    { b with
      pc := .exited
      mem := { b.mem with bidTime := Function.update b.mem.bidTime id now } }
  | .exited => b

/-- The thread at its entry, on shared memory `s`. -/
def bidderStart (s : Shared) : Bidder :=
  { pc := .whileTest, isCommitted := 0, randCalls := 0, mem := s }

/-- The state of `bidding(id)` after `n` statements. -/
def bidRun (rand : Nat → Nat) (now : Int) (id : Nat) (s : Shared) : Nat → Bidder
  | 0 => bidderStart s
  | n + 1 => bidStep rand now id (bidRun rand now id s n)

/-- Number of loop iterations begun in the first `n` states of the run: the states
that stand at the first statement of the loop body. -/
def loopIterations (rand : Nat → Nat) (now : Int) (id : Nat) (s : Shared) (n : Nat) : Nat :=
  ((List.range n).filter (fun k => (bidRun rand now id s k).pc = Pc.sleep)).length

/-! ## The coordinator `startAuction`

The bidder threads write `bid`, `committed`, `bidTime` and `bidCount` while the
coordinator runs, and the coordinator never writes them. Its run is therefore
determined by what these arrays hold each time it looks at them: `env t` is the
memory at its `t`-th look. One iteration of the `for` loop looks twice: at the
test of line 178, and then either at the reads inside `updateRanking` or at the
second test of `committed[i]` on line 182. The three reads of `updateRanking`
(`bid[i]`, `bidTime[i]`, `bidCount[i]`) share one look: for an arbitrary `env` a
run in which they see three memories is the run whose look holds the three
values read. -/

/-- The coordinator: the shared structure as it sees it, the local `rankingSize`
and the number of looks at the bidders' memory so far. -/
structure Coordinator where
  shared : Shared
  rankingSize : Nat
  reads : Nat

/-- The coordinator's view after a look at memory `m`: the bidder-owned arrays are
those of `m`. -/
def observe (m : Shared) (s : Shared) : Shared :=
  { s with bid := m.bid, committed := m.committed, bidTime := m.bidTime, bidCount := m.bidCount }

/-- Body of the `for` loop of `startAuction` for bidder `i` (the call of `display`
only prints). -/
def auctionBody (env : Nat → Shared) (c : Coordinator) (i : Nat) : Coordinator :=
  let s := observe (env c.reads) c.shared
  let c1 : Coordinator :=
    if s.committed i ≠ 0 ∧ s.isRanked i = 0 then
      let rankingSize := c.rankingSize + 1
      { shared := updateRanking rankingSize i (observe (env (c.reads + 1)) s)
        rankingSize := rankingSize
        reads := c.reads + 2 }
    else
      let s1 := observe (env (c.reads + 1)) s
      if s1.committed i = 0 then
        { shared := { s1 with auctionFinished := FALSE }
          rankingSize := c.rankingSize
          reads := c.reads + 2 }
      else { shared := s1, rankingSize := c.rankingSize, reads := c.reads + 2 }
  { c1 with shared := insertionSort c1.rankingSize c1.shared }

/-- The first `j` iterations of the `for` loop of `startAuction`. -/
def forLoop (env : Nat → Shared) (j : Nat) (c : Coordinator) : Coordinator :=
  (List.range j).foldl (auctionBody env) c

/-- The statement `auctionInfo.auctionFinished = TRUE;` that opens a pass. -/
def beginPass (c : Coordinator) : Coordinator :=
  { c with shared := { c.shared with auctionFinished := TRUE } }

/-- One pass of the `while` loop of `startAuction`: `auctionFinished = TRUE`, then
the `for` loop over all bidders. -/
def auctionPass (env : Nat → Shared) (numOfBidders : Nat) (c : Coordinator) : Coordinator :=
  forLoop env numOfBidders (beginPass c)

/-- Function `startAuction`: passes are repeated while `auctionFinished` is false;
`none` when `fuel` passes were not enough. -/
def startAuction (env : Nat → Shared) (numOfBidders : Nat) : Nat → Coordinator → Option Coordinator
  | 0, _ => none
  | fuel + 1, c =>
    if c.shared.auctionFinished = 0 then
      startAuction env numOfBidders fuel (auctionPass env numOfBidders c)
    else some c

/-- The coordinator at the call `startAuction(numOfBidders, 0)`. -/
def coordinatorStart (s : Shared) : Coordinator :=
  { shared := s, rankingSize := 0, reads := 0 }

/-- The state after `k` passes. -/
def passes (env : Nat → Shared) (numOfBidders : Nat) (c : Coordinator) : Nat → Coordinator
  | 0 => c
  | k + 1 => auctionPass env numOfBidders (passes env numOfBidders c k)

/-- The bidder numbers in the ranking, in rank order. -/
def rankedIds (c : Coordinator) : List Int :=
  (List.range c.rankingSize).map c.shared.rankedBidders

/-- The interleaving of one bidder thread with the coordinator: `sched t` is the
number of statements `bidding(id)` has executed when the coordinator takes its
`t`-th look at the bidders' memory. -/
def bidderView (rand : Nat → Nat) (now : Int) (id : Nat) (s : Shared) (sched : Nat → Nat) :
    Nat → Shared :=
  fun t => (bidRun rand now id s (sched t)).mem

/-- A memory whose cells all hold 0, used for concrete runs. -/
def emptyMemory : Shared :=
  ⟨0, 0, 0, 0, fun _ => 0, fun _ => 0, fun _ => 0, fun _ => 0, fun _ => 0, fun _ => 0,
    fun _ => 0, fun _ => 0, fun _ => 0⟩

/-- The ranking arrays of `s` overwritten with the tuples of `l` from index 0 on. -/
def storeEntries (l : List Entry) (s : Shared) : Shared :=
  { s with
    ranking := fun k => ((l.get? k).map Entry.bid).getD (s.ranking k)
    rankedBidders := fun k => ((l.get? k).map Entry.bidder).getD (s.rankedBidders k)
    rankedTime := fun k => ((l.get? k).map Entry.time).getD (s.rankedTime k)
    rankedBidCount := fun k => ((l.get? k).map Entry.bidCount).getD (s.rankedBidCount k) }

/-- The initialised auction of one bidder who is allowed a single bid. -/
def oneBidder : Shared := initializeAuction 1 1 10 1 emptyMemory

/-- The initialised auction of one bidder who is allowed three bids. -/
def threeBids : Shared := initializeAuction 1 3 10 2 emptyMemory

/-! ## List view of the ranking routines

These definitions are used in the proofs only: they describe on the list
`entries s n` what the loops do on the arrays, and the refinement lemmas below
connect them to the code. -/

/-- The `while` loop and the final `sortHelper` seen on the reversed prefix: the
scan starts at the tail of the prefix, passes every entry that may not stand
before the key and puts the key behind the first one that may. -/
def insertRev (key : Entry) : List Entry → List Entry
  | [] => [key]
  | b :: r => if rankedBefore b key then key :: b :: r else b :: insertRev key r

/-- Insertion by a scan from the front: the new entry goes behind every entry that
may stand before it. On a sorted list this is what `insertRev` does from the tail. -/
def insertAfter (x : Entry) : List Entry → List Entry
  | [] => [x]
  | b :: s => if rankedBefore b x then b :: insertAfter x s else x :: b :: s

/-- The `while` loop started at `j + 1 = p`, followed by the write of the key. -/
def place (key : Entry) (p : Nat) (s : Shared) : Shared :=
  sortHelper (((shiftLoop key.bid key.time p s).1 : Int) - 1) key.bid key.bidder key.time
    key.bidCount (shiftLoop key.bid key.time p s).2

/-- The key that `insertionSort` forms from the entry at index `i`: its time has
gone through an `int`. -/
def keyOf (e : Entry) : Entry := { e with time := toInt e.time }

/-- The `for` loop of `insertionSort` on lists: `done` is the prefix already
treated, `todo` the entries still to be taken as keys. -/
def sortList : List Entry → List Entry → List Entry
  | done, [] => done
  | done, k :: rest => sortList (insertRev (keyOf k) done.reverse).reverse rest

/-- The effect of `insertionSort` on the ranking sequence. -/
def insertionSortList : List Entry → List Entry
  | [] => []
  | e :: l => sortList [e] l

/-- The tuples at indices `i .. i+len-1`. -/
def entriesFrom (s : Shared) (i len : Nat) : List Entry :=
  (List.range' i len).map (entryAt s)

/-- Everything in the shared structure except the four ranking arrays. -/
def frame (s : Shared) : Shared :=
  { s with
    ranking := fun _ => 0
    rankedBidders := fun _ => 0
    rankedTime := fun _ => 0
    rankedBidCount := fun _ => 0 }

/-- Invariant of the coordinator: the ranked bidder numbers are pairwise different
and each of them has its `isRanked` flag set. -/
def RankedOnce (c : Coordinator) : Prop :=
  (rankedIds c).Nodup ∧ ∀ b ∈ rankedIds c, ∃ i : Nat, b = (i : Int) ∧ c.shared.isRanked i ≠ 0

/-- Invariant of the coordinator used for the exit of `startAuction`: besides
`RankedOnce`, the ranked numbers are below `numOfBidders`, every bidder whose
`isRanked` flag is set is in the ranking, and the number of looks is even. -/
def Covered (numOfBidders : Nat) (c : Coordinator) : Prop :=
  RankedOnce c ∧
  (∀ b ∈ rankedIds c, ∃ i : Nat, i < numOfBidders ∧ b = (i : Int)) ∧
  (∀ i : Nat, i < numOfBidders → c.shared.isRanked i ≠ 0 → (i : Int) ∈ rankedIds c) ∧
  ∃ m, c.reads = 2 * m

/-- Invariant of `bidding(id)` with `bidsPerBidder = B`, by program point; `L` is
the number of loop iterations begun so far. -/
def bidInv (B : Int) (id : Nat) (b : Bidder) (L : Nat) : Prop :=
  b.mem.bidsPerBidder = B ∧ 0 ≤ b.mem.bidCount id ∧
  match b.pc with
  | .whileTest =>
    b.mem.bidCount id ≤ B - 1 ∧ (L : Int) ≤ b.mem.bidCount id ∧
      (b.mem.committed id = 0 ∨ (b.mem.committed id = 1 ∧ 1 ≤ b.mem.bidCount id))
  | .sleep =>
    b.mem.bidCount id < B - 1 ∧ (L : Int) ≤ b.mem.bidCount id ∧ b.mem.committed id = 0
  | .tempBid =>
    b.mem.bidCount id < B - 1 ∧ (L : Int) ≤ b.mem.bidCount id + 1 ∧ b.mem.committed id = 0
  | .draw =>
    b.mem.bidCount id < B - 1 ∧ (L : Int) ≤ b.mem.bidCount id + 1 ∧ b.mem.committed id = 0
  | .setCommitted =>
    b.mem.bidCount id < B - 1 ∧ (L : Int) ≤ b.mem.bidCount id + 1 ∧ b.mem.committed id = 0 ∧
      (b.isCommitted = 0 ∨ b.isCommitted = 1)
  | .countBid =>
    b.mem.bidCount id < B - 1 ∧ (L : Int) ≤ b.mem.bidCount id + 1 ∧
      (b.mem.committed id = 0 ∨ b.mem.committed id = 1)
  | .ifForced =>
    b.mem.bidCount id ≤ B - 1 ∧ (L : Int) ≤ b.mem.bidCount id ∧
      (b.mem.committed id = 0 ∨ (b.mem.committed id = 1 ∧ 1 ≤ b.mem.bidCount id))
  | .forcedBid =>
    b.mem.bidCount id ≤ B - 1 ∧ (L : Int) ≤ b.mem.bidCount id ∧ b.mem.committed id = 0
  | .forcedCommit =>
    b.mem.bidCount id ≤ B - 1 ∧ (L : Int) ≤ b.mem.bidCount id ∧ b.mem.committed id = 0
  | .forcedCount =>
    b.mem.bidCount id ≤ B - 1 ∧ (L : Int) ≤ b.mem.bidCount id ∧ b.mem.committed id = 1
  | .recordTime =>
    1 ≤ b.mem.bidCount id ∧ b.mem.bidCount id ≤ B ∧ (L : Int) ≤ B - 1 ∧ b.mem.committed id = 1
  | .exited =>
    1 ≤ b.mem.bidCount id ∧ b.mem.bidCount id ≤ B ∧ (L : Int) ≤ B - 1 ∧ b.mem.committed id = 1

/-- An upper bound on the number of statements `bidding(id)` still has to execute. -/
def bidMeasure (id : Nat) (b : Bidder) : Nat :=
  match b.pc with
  | .whileTest => 6 * (b.mem.bidsPerBidder - 1 - b.mem.bidCount id).toNat + 6
  | .sleep => 6 * (b.mem.bidsPerBidder - 1 - b.mem.bidCount id).toNat + 5
  | .tempBid => 6 * (b.mem.bidsPerBidder - 1 - b.mem.bidCount id).toNat + 4
  | .draw => 6 * (b.mem.bidsPerBidder - 1 - b.mem.bidCount id).toNat + 3
  | .setCommitted => 6 * (b.mem.bidsPerBidder - 1 - b.mem.bidCount id).toNat + 2
  | .countBid => 6 * (b.mem.bidsPerBidder - 1 - b.mem.bidCount id).toNat + 1
  | .ifForced => 5
  | .forcedBid => 4
  | .forcedCommit => 3
  | .forcedCount => 2
  | .recordTime => 1
  | .exited => 0

/-! ## Refinement: the loops of `insertionSort` on the ranking sequence -/

theorem entryAt_sortHelper (j : Int) (b bd t c : Int) (s : Shared) (k : Nat) :
    entryAt (sortHelper j b bd t c s) k
      = if k = (j + 1).toNat then ⟨b, bd, t, c⟩ else entryAt s k := by
  unfold entryAt sortHelper
  by_cases h : k = (j + 1).toNat
  · subst h
    simp
  · simp [h, Function.update_noteq h]

theorem entries_succ (s : Shared) (n : Nat) :
    entries s (n + 1) = entries s n ++ [entryAt s n] := by
  simp [entries, List.range_succ]

theorem entries_congr {s t : Shared} {n : Nat} (h : ∀ k, k < n → entryAt s k = entryAt t k) :
    entries s n = entries t n := by
  unfold entries
  apply List.map_congr_left
  intro k hk
  exact h k (List.mem_range.mp hk)

theorem entries_length (s : Shared) (n : Nat) : (entries s n).length = n := by
  simp [entries]

theorem entries_getElem (s : Shared) (n k : Nat) (h : k < (entries s n).length) :
    (entries s n)[k] = entryAt s k := by
  simp [entries]

theorem place_zero (key : Entry) (s : Shared) :
    place key 0 s = sortHelper (-1) key.bid key.bidder key.time key.bidCount s := by
  simp [place, shiftLoop]

theorem place_succ_stop (key : Entry) (p : Nat) (s : Shared)
    (h : rankedBefore (entryAt s p) key) :
    place key (p + 1) s = sortHelper p key.bid key.bidder key.time key.bidCount s := by
  have h1 : ¬ (s.ranking p ≤ key.bid) ∨ (s.ranking p = key.bid ∧ s.rankedTime p ≤ key.time) := by
    rcases h with h | h
    · left; simp only [entryAt] at h; omega
    · right; simpa [entryAt] using h
  unfold place
  rw [shiftLoop]
  by_cases h2 : s.ranking p ≤ key.bid
  · have h3 : s.ranking p = key.bid ∧ s.rankedTime p ≤ key.time := by
      rcases h1 with h1 | h1
      · exact absurd h2 h1
      · exact h1
    simp [h2, h3]
  · simp [h2]

theorem place_succ_shift (key : Entry) (p : Nat) (s : Shared)
    (h : ¬ rankedBefore (entryAt s p) key) :
    place key (p + 1) s
      = place key p (sortHelper p (s.ranking p) (s.rankedBidders p) (s.rankedTime p)
          (s.rankedBidCount p) s) := by
  have h1 : s.ranking p ≤ key.bid := by
    by_contra hc
    exact h (Or.inl (by simp only [entryAt]; omega))
  have h2 : ¬ (s.ranking p = key.bid ∧ s.rankedTime p ≤ key.time) := by
    intro hc
    exact h (Or.inr (by simpa [entryAt] using hc))
  unfold place
  rw [shiftLoop]
  simp [h1, h2]

/-- The `while` loop started at `p` and the final write leave the cells above `p` as
they are. -/
theorem place_frame (key : Entry) (p : Nat) :
    ∀ (s : Shared) (k : Nat), p < k → entryAt (place key p s) k = entryAt s k := by
  induction p with
  | zero =>
    intro s k hk
    rw [place_zero, entryAt_sortHelper]
    have : k ≠ ((-1 : Int) + 1).toNat := by simp; omega
    rw [if_neg this]
  | succ p ih =>
    intro s k hk
    by_cases h : rankedBefore (entryAt s p) key
    · rw [place_succ_stop key p s h, entryAt_sortHelper]
      have : k ≠ ((p : Int) + 1).toNat := by
        have : ((p : Int) + 1).toNat = p + 1 := by omega
        omega
      rw [if_neg this]
    · rw [place_succ_shift key p s h, ih _ k (by omega), entryAt_sortHelper]
      have : k ≠ ((p : Int) + 1).toNat := by
        have : ((p : Int) + 1).toNat = p + 1 := by omega
        omega
      rw [if_neg this]

/-- Refinement of the `while` loop with the final write: on the reversed prefix it is
`insertRev`. -/
theorem place_entries (key : Entry) (p : Nat) :
    ∀ s : Shared, (entries (place key p s) (p + 1)).reverse
      = insertRev key (entries s p).reverse := by
  induction p with
  | zero =>
    intro s
    rw [place_zero]
    simp [entries, insertRev, entryAt_sortHelper, List.range_succ]
  | succ p ih =>
    intro s
    have hp : ((p : Int) + 1).toNat = p + 1 := by omega
    by_cases h : rankedBefore (entryAt s p) key
    · rw [place_succ_stop key p s h, entries_succ, entries_succ s p]
      have e1 : entries (sortHelper p key.bid key.bidder key.time key.bidCount s) (p + 1)
          = entries s (p + 1) := by
        apply entries_congr
        intro k hk
        rw [entryAt_sortHelper, hp]
        simp [Nat.ne_of_lt hk]
      rw [e1, entries_succ s p, entryAt_sortHelper, hp]
      simp [insertRev, h]
    · rw [place_succ_shift key p s h, entries_succ, List.reverse_append, ih,
        place_frame key p _ (p + 1) (by omega), entryAt_sortHelper, hp, entries_succ s p]
      have e1 : entries (sortHelper p (s.ranking p) (s.rankedBidders p) (s.rankedTime p)
          (s.rankedBidCount p) s) p = entries s p := by
        apply entries_congr
        intro k hk
        rw [entryAt_sortHelper, hp]
        have : k ≠ p + 1 := by omega
        simp [this]
      rw [e1]
      have e2 : (⟨s.ranking p, s.rankedBidders p, s.rankedTime p, s.rankedBidCount p⟩ : Entry)
          = entryAt s p := rfl
      rw [e2]
      simp [insertRev, h]

theorem insertionSortBody_eq (s : Shared) (i : Nat) :
    insertionSortBody s i = place (keyOf (entryAt s i)) i s := rfl

theorem entriesFrom_succ (s : Shared) (i len : Nat) :
    entriesFrom s i (len + 1) = entryAt s i :: entriesFrom s (i + 1) len := by
  simp [entriesFrom, List.range'_succ]

theorem entriesFrom_congr {s t : Shared} {i len : Nat}
    (h : ∀ k, i ≤ k → entryAt s k = entryAt t k) :
    entriesFrom s i len = entriesFrom t i len := by
  unfold entriesFrom
  apply List.map_congr_left
  intro k hk
  exact h k (List.mem_range'_1.mp hk).1

theorem entries_eq_entriesFrom (s : Shared) (n : Nat) : entries s n = entriesFrom s 0 n := by
  simp [entries, entriesFrom, List.range_eq_range']

theorem foldl_insertionSortBody (len : Nat) :
    ∀ (i : Nat) (s : Shared),
      entries ((List.range' i len).foldl insertionSortBody s) (i + len)
        = sortList (entries s i) (entriesFrom s i len) := by
  induction len with
  | zero =>
    intro i s
    simp [entriesFrom, sortList]
  | succ len ih =>
    intro i s
    rw [List.range'_succ, List.foldl_cons, entriesFrom_succ, sortList]
    have h := ih (i + 1) (insertionSortBody s i)
    rw [show i + 1 + len = i + (len + 1) by omega] at h
    rw [h, insertionSortBody_eq]
    have e1 : entries (place (keyOf (entryAt s i)) i s) (i + 1)
        = (insertRev (keyOf (entryAt s i)) (entries s i).reverse).reverse := by
      rw [← place_entries, List.reverse_reverse]
    have e2 : entriesFrom (place (keyOf (entryAt s i)) i s) (i + 1) len
        = entriesFrom s (i + 1) len := by
      apply entriesFrom_congr
      intro k hk
      exact place_frame _ i s k (by omega)
    rw [e1, e2]

/-- Refinement of `insertionSort`: the ranking sequence after `insertionSort(n)` is
`insertionSortList` of the sequence before. -/
theorem entries_insertionSort (n : Nat) (s : Shared) :
    entries (insertionSort n s) n = insertionSortList (entries s n) := by
  cases n with
  | zero => simp [insertionSort, entries, insertionSortList]
  | succ m =>
    have h := foldl_insertionSortBody m 1 s
    rw [show 1 + m = m + 1 by omega] at h
    unfold insertionSort
    rw [show m + 1 - 1 = m by omega, h, entries_eq_entriesFrom s (m + 1), entriesFrom_succ,
      insertionSortList]
    simp [entries, List.range_succ]

theorem frame_sortHelper (j b bd t c : Int) (s : Shared) :
    frame (sortHelper j b bd t c s) = frame s := rfl

theorem frame_shiftLoop (kb kt : Int) (p : Nat) :
    ∀ s : Shared, frame (shiftLoop kb kt p s).2 = frame s := by
  induction p with
  | zero => intro s; rfl
  | succ p ih =>
    intro s
    rw [shiftLoop]
    split_ifs
    · rfl
    · rw [ih, frame_sortHelper]
    · rfl

theorem frame_insertionSortBody (s : Shared) (i : Nat) :
    frame (insertionSortBody s i) = frame s := by
  unfold insertionSortBody
  simp only [frame_sortHelper, frame_shiftLoop]

/-- Function `insertionSort` writes the four ranking arrays only. -/
theorem frame_insertionSort (n : Nat) (s : Shared) : frame (insertionSort n s) = frame s := by
  unfold insertionSort
  generalize List.range' 1 (n - 1) = l
  induction l generalizing s with
  | nil => rfl
  | cons i l ih => rw [List.foldl_cons, ih, frame_insertionSortBody]

theorem isRanked_insertionSort (n : Nat) (s : Shared) :
    (insertionSort n s).isRanked = s.isRanked := by
  have h := congrArg Shared.isRanked (frame_insertionSort n s)
  exact h

theorem auctionFinished_insertionSort (n : Nat) (s : Shared) :
    (insertionSort n s).auctionFinished = s.auctionFinished := by
  have h := congrArg Shared.auctionFinished (frame_insertionSort n s)
  exact h

/-! ## The list view: order and rearrangement -/

theorem rankedBefore_trans {a b c : Entry} (h1 : rankedBefore a b) (h2 : rankedBefore b c) :
    rankedBefore a c := by
  unfold rankedBefore at *
  omega

theorem rankedBefore_total (a b : Entry) : rankedBefore a b ∨ rankedBefore b a := by
  unfold rankedBefore
  omega

theorem insertRev_perm (key : Entry) (r : List Entry) : (insertRev key r).Perm (key :: r) := by
  induction r with
  | nil => simp [insertRev]
  | cons b r ih =>
    rw [insertRev]
    split_ifs
    · exact List.Perm.refl _
    · exact (List.Perm.cons b ih).trans (List.Perm.swap key b r)

theorem insertRev_sorted (key : Entry) (r : List Entry)
    (h : r.Pairwise (fun a b => rankedBefore b a)) :
    (insertRev key r).Pairwise (fun a b => rankedBefore b a) := by
  induction r with
  | nil => simp [insertRev]
  | cons b r ih =>
    rw [insertRev]
    rw [List.pairwise_cons] at h
    split_ifs with hb
    · rw [List.pairwise_cons]
      refine ⟨?_, List.pairwise_cons.mpr h⟩
      intro x hx
      rcases List.mem_cons.mp hx with hx | hx
      · rw [hx]; exact hb
      · exact rankedBefore_trans (h.1 x hx) hb
    · rw [List.pairwise_cons]
      refine ⟨?_, ih h.2⟩
      intro x hx
      rcases List.mem_cons.mp ((insertRev_perm key r).mem_iff.mp hx) with hx | hx
      · rw [hx]
        exact (rankedBefore_total b key).resolve_left hb
      · exact h.1 x hx

theorem sortList_sorted (todo : List Entry) :
    ∀ done : List Entry, done.Pairwise rankedBefore →
      (sortList done todo).Pairwise rankedBefore := by
  induction todo with
  | nil => intro done h; simpa [sortList] using h
  | cons k rest ih =>
    intro done h
    rw [sortList]
    apply ih
    rw [List.pairwise_reverse]
    exact insertRev_sorted _ _ (List.pairwise_reverse.mpr h)

theorem insertionSortList_sorted (l : List Entry) :
    (insertionSortList l).Pairwise rankedBefore := by
  cases l with
  | nil => simp [insertionSortList]
  | cons e l => exact sortList_sorted l [e] (List.pairwise_singleton _ _)

theorem sortList_perm (todo : List Entry) :
    ∀ done : List Entry, (sortList done todo).Perm (done ++ todo.map keyOf) := by
  induction todo with
  | nil => intro done; simp [sortList]
  | cons k rest ih =>
    intro done
    rw [sortList]
    refine (ih _).trans ?_
    rw [List.map_cons]
    have h1 : (insertRev (keyOf k) done.reverse).reverse.Perm (keyOf k :: done) :=
      (List.reverse_perm _).trans
        ((insertRev_perm _ _).trans (List.Perm.cons _ (List.reverse_perm _)))
    have h2 := List.Perm.append_right (List.map keyOf rest) h1
    rw [List.cons_append] at h2
    exact h2.trans List.perm_middle.symm

/-- The effect of `insertionSort` on the tuples: they are rearranged, and every tuple
but the first has had its time converted to `int`. -/
theorem insertionSortList_perm (e : Entry) (l : List Entry) :
    (insertionSortList (e :: l)).Perm (e :: l.map keyOf) := by
  simpa [insertionSortList] using sortList_perm l [e]

theorem insertionSortList_length (l : List Entry) :
    (insertionSortList l).length = l.length := by
  cases l with
  | nil => rfl
  | cons e l => simpa using (insertionSortList_perm e l).length_eq

theorem insertionSortList_bidders (l : List Entry) :
    ((insertionSortList l).map Entry.bidder).Perm (l.map Entry.bidder) := by
  cases l with
  | nil => simp [insertionSortList]
  | cons e l =>
    have h := (insertionSortList_perm e l).map Entry.bidder
    have e1 : (l.map keyOf).map Entry.bidder = l.map Entry.bidder := by
      simp [List.map_map, Function.comp_def, keyOf]
    simpa [e1] using h

theorem keyOf_eq_self (e : Entry) (h : toInt e.time = e.time) : keyOf e = e := by
  cases e
  simp only [keyOf] at *
  simp [h]

theorem insertRev_append_stop (x b : Entry) (h : rankedBefore b x) (r : List Entry) :
    insertRev x (r ++ [b]) = insertRev x r ++ [b] := by
  induction r with
  | nil => simp [insertRev, h]
  | cons c r ih =>
    rw [List.cons_append, insertRev, insertRev]
    split_ifs
    · rfl
    · rw [ih]; rfl

theorem insertRev_append_pass (x b : Entry) (h : ¬ rankedBefore b x) (r : List Entry)
    (hr : ∀ c ∈ r, ¬ rankedBefore c x) :
    insertRev x (r ++ [b]) = r ++ [b, x] := by
  induction r with
  | nil => simp [insertRev, h]
  | cons c r ih =>
    rw [List.cons_append, insertRev, if_neg (hr c (List.mem_cons_self _ _)),
      ih (fun d hd => hr d (List.mem_cons_of_mem _ hd))]
    rfl

/-- On a sorted prefix the scan from the tail puts the key where the scan from the
front puts it. -/
theorem insertRev_reverse_eq_insertAfter (x : Entry) (s : List Entry)
    (hs : s.Pairwise rankedBefore) :
    (insertRev x s.reverse).reverse = insertAfter x s := by
  induction s with
  | nil => simp [insertRev, insertAfter]
  | cons b s ih =>
    rw [List.pairwise_cons] at hs
    rw [List.reverse_cons, insertAfter]
    by_cases h : rankedBefore b x
    · rw [insertRev_append_stop x b h, if_pos h, List.reverse_append, ih hs.2]
      rfl
    · rw [insertRev_append_pass x b h, if_neg h]
      · simp
      · intro c hc hcx
        exact h (rankedBefore_trans (hs.1 c (List.mem_reverse.mp hc)) hcx)

theorem insertAfter_perm (x : Entry) (s : List Entry) : (insertAfter x s).Perm (x :: s) := by
  induction s with
  | nil => simp [insertAfter]
  | cons b s ih =>
    rw [insertAfter]
    split_ifs
    · exact (List.Perm.cons b ih).trans (List.Perm.swap x b s)
    · exact List.Perm.refl _

theorem foldl_insertAfter_perm (l : List Entry) :
    ∀ acc : List Entry, (l.foldl (fun acc x => insertAfter x acc) acc).Perm (acc ++ l) := by
  induction l with
  | nil => intro acc; simp
  | cons x l ih =>
    intro acc
    rw [List.foldl_cons]
    refine (ih _).trans ?_
    have h := List.Perm.append_right l (insertAfter_perm x acc)
    rw [List.cons_append] at h
    exact h.trans List.perm_middle.symm

/-- Inserting behind the equal entries and inserting before them commute. -/
theorem insertAfter_orderedInsert (a x : Entry) (s : List Entry) :
    insertAfter x (List.orderedInsert rankedBefore a s)
      = List.orderedInsert rankedBefore a (insertAfter x s) := by
  induction s with
  | nil =>
    simp only [List.orderedInsert, insertAfter]
  | cons b s ih =>
    simp only [List.orderedInsert, insertAfter]
    by_cases h1 : rankedBefore a b <;> by_cases h2 : rankedBefore b x
    · have h3 : rankedBefore a x := rankedBefore_trans h1 h2
      simp [h1, h2, h3, insertAfter]
    · by_cases h3 : rankedBefore a x <;> simp [h1, h2, h3, insertAfter]
    · simp [h1, h2, insertAfter, ih]
    · have h3 : ¬ rankedBefore a x := by
        unfold rankedBefore at *
        omega
      simp [h1, h2, h3, insertAfter]

theorem foldl_insertAfter_orderedInsert (a : Entry) (l : List Entry) :
    ∀ s : List Entry,
      l.foldl (fun acc x => insertAfter x acc) (List.orderedInsert rankedBefore a s)
        = List.orderedInsert rankedBefore a (l.foldl (fun acc x => insertAfter x acc) s) := by
  induction l with
  | nil => intro s; rfl
  | cons x l ih =>
    intro s
    rw [List.foldl_cons, List.foldl_cons, insertAfter_orderedInsert, ih]

theorem foldl_insertAfter_eq_sortFromScratch (l : List Entry) :
    l.foldl (fun acc x => insertAfter x acc) [] = sortFromScratch l := by
  induction l with
  | nil => rfl
  | cons a l ih =>
    have h := foldl_insertAfter_orderedInsert a l []
    rw [List.orderedInsert_nil] at h
    unfold sortFromScratch at *
    rw [List.foldl_cons, List.insertionSort, ← ih, ← h]
    rfl

theorem sortList_snoc (todo : List Entry) (x : Entry) :
    ∀ done : List Entry,
      sortList done (todo ++ [x]) = (insertRev (keyOf x) (sortList done todo).reverse).reverse := by
  induction todo with
  | nil => intro done; simp [sortList]
  | cons k rest ih => intro done; rw [List.cons_append, sortList, sortList, ih]

theorem sortList_of_sorted (todo : List Entry) :
    ∀ done : List Entry, (done ++ todo).Pairwise rankedBefore →
      (∀ e ∈ todo, toInt e.time = e.time) → sortList done todo = done ++ todo := by
  induction todo with
  | nil => intro done _ _; simp [sortList]
  | cons k rest ih =>
    intro done hs hr
    have hk : keyOf k = k := keyOf_eq_self k (hr k (List.mem_cons_self _ _))
    have hd : done.Pairwise rankedBefore := (List.pairwise_append.mp hs).1
    have e1 : (insertRev (keyOf k) done.reverse).reverse = done ++ [k] := by
      rw [hk, insertRev_reverse_eq_insertAfter k done hd]
      have hall : ∀ b ∈ done, rankedBefore b k := fun b hb =>
        (List.pairwise_append.mp hs).2.2 b hb k (List.mem_cons_self _ _)
      clear hs hd ih
      induction done with
      | nil => rfl
      | cons b done ihd =>
        rw [insertAfter, if_pos (hall b (List.mem_cons_self _ _)),
          ihd (fun c hc => hall c (List.mem_cons_of_mem _ hc))]
        rfl
    rw [sortList, e1, ih (done ++ [k]) (by simpa using hs)
      (fun e he => hr e (List.mem_cons_of_mem _ he))]
    simp

theorem insertionSortList_snoc (R : List Entry) (x : Entry) (hs : R.Pairwise rankedBefore)
    (hR : ∀ e ∈ R, toInt e.time = e.time) (hx : toInt x.time = x.time) :
    insertionSortList (R ++ [x]) = insertAfter x R := by
  cases R with
  | nil => simp [insertionSortList, sortList, insertAfter]
  | cons e R =>
    rw [List.cons_append, insertionSortList, sortList_snoc, keyOf_eq_self x hx,
      sortList_of_sorted R [e] (by simpa using hs) (fun d hd => hR d (List.mem_cons_of_mem _ hd))]
    exact insertRev_reverse_eq_insertAfter x _ (by simpa using hs)

/-- Two sorted rearrangements of the same entries are equal when entries that may
stand before each other are equal. -/
theorem sorted_perm_unique :
    ∀ (l₁ l₂ : List Entry), l₁.Perm l₂ → l₁.Pairwise rankedBefore → l₂.Pairwise rankedBefore →
      (∀ a ∈ l₁, ∀ b ∈ l₁, rankedBefore a b → rankedBefore b a → a = b) → l₁ = l₂ := by
  intro l₁
  induction l₁ with
  | nil => intro l₂ hp _ _ _; exact hp.nil_eq
  | cons a t ih =>
    intro l₂ hp h1 h2 anti
    cases l₂ with
    | nil => exact absurd hp.length_eq (by simp)
    | cons b t₂ =>
      rw [List.pairwise_cons] at h1 h2
      have ha : a ∈ b :: t₂ := hp.mem_iff.mp (List.mem_cons_self _ _)
      have hb : b ∈ a :: t := hp.mem_iff.mpr (List.mem_cons_self _ _)
      have hab : a = b := by
        rcases List.mem_cons.mp ha with e | ha'
        · exact e
        · rcases List.mem_cons.mp hb with e | hb'
          · exact e.symm
          · exact anti a (List.mem_cons_self _ _) b hb (h1.1 b hb') (h2.1 a ha')
      subst hab
      rw [ih t₂ (List.Perm.cons_inv hp) h1.2 h2.2
        (fun x hx y hy => anti x (List.mem_cons_of_mem _ hx) y (List.mem_cons_of_mem _ hy))]

/-! ## The ranking is sorted after every insertion (C1) -/

theorem adjacent_of_pairwise (s : Shared) (n k : Nat) (hk : k + 1 < n)
    (h : (entries s n).Pairwise rankedBefore) :
    rankedBefore (entryAt s k) (entryAt s (k + 1)) := by
  have h1 : k < (entries s n).length := by rw [entries_length]; omega
  have h2 : k + 1 < (entries s n).length := by rw [entries_length]; omega
  have h3 := List.pairwise_iff_getElem.mp h k (k + 1) h1 h2 (by omega)
  rwa [entries_getElem, entries_getElem] at h3

theorem insertAll_snoc (s : Shared) (l : List Commit) (c : Commit) :
    insertAll s (l ++ [c]) = insertCommit (insertAll s l) c := by
  simp [insertAll, List.foldl_append]

theorem insertAll_size (s : Shared) (l : List Commit) : (insertAll s l).2 = l.length := by
  induction l using List.reverseRecOn with
  | nil => rfl
  | append_singleton l c ih => rw [insertAll_snoc]; simp [insertCommit, ih]

/-- After `insertionSort(n)` the first `n` ranking entries are in order, whatever the
arrays held before. -/
theorem insertionSort_sorted (n : Nat) (s : Shared) :
    (entries (insertionSort n s) n).Pairwise rankedBefore := by
  rw [entries_insertionSort]
  exact insertionSortList_sorted _

theorem insertAll_sorted (s : Shared) (l : List Commit) :
    (entries (insertAll s l).1 (insertAll s l).2).Pairwise rankedBefore := by
  induction l using List.reverseRecOn with
  | nil => simp [insertAll, entries]
  | append_singleton l c _ =>
    rw [insertAll_snoc]
    exact insertionSort_sorted _ _

/-- Claim C1: starting from the empty ranking, after any sequence of insertions
(`updateRanking` at index `rankingSize - 1` followed by `insertionSort(rankingSize)`),
with any bid and time values, every adjacent pair of ranking entries `A`, `B`
satisfies `A.bid > B.bid`, or `A.bid = B.bid` and `A.time ≤ B.time`. -/
theorem ranking_sorted_after_every_insertion (s : Shared) (l : List Commit) (k : Nat)
    (hk : k + 1 < (insertAll s l).2) :
    rankedBefore (entryAt (insertAll s l).1 k) (entryAt (insertAll s l).1 (k + 1)) :=
  adjacent_of_pairwise _ _ k hk (insertAll_sorted s l)

/-- Witness of C1 on the three bidders of the spec's scenario. -/
theorem ranking_sorted_after_every_insertion_witness :
    0 + 1 < (insertAll emptyMemory [⟨0, 50, 100, 1⟩, ⟨1, 80, 102, 2⟩, ⟨2, 80, 101, 1⟩]).2 ∧
      rankedBefore
        (entryAt (insertAll emptyMemory [⟨0, 50, 100, 1⟩, ⟨1, 80, 102, 2⟩, ⟨2, 80, 101, 1⟩]).1 0)
        (entryAt (insertAll emptyMemory [⟨0, 50, 100, 1⟩, ⟨1, 80, 102, 2⟩, ⟨2, 80, 101, 1⟩]).1
          (0 + 1)) :=
  ⟨by decide, ranking_sorted_after_every_insertion emptyMemory _ 0 (by decide)⟩

/-! ## `insertionSort` and the tuples (C10) -/

/-- Claim C10 (the code does otherwise): `insertionSort(2)` on the ranking
`[(5, 0, 0, 1), (3, 1, 2147483648, 1)]` leaves the order as it is and replaces the
time of the second tuple by `-2147483648`; the tuple `(3, 1, 2147483648, 1)` is lost. -/
theorem insertionSort_alters_time :
    entries (storeEntries [⟨5, 0, 0, 1⟩, ⟨3, 1, 2147483648, 1⟩] emptyMemory) 2
      = [⟨5, 0, 0, 1⟩, ⟨3, 1, 2147483648, 1⟩] ∧
    entries (insertionSort 2 (storeEntries [⟨5, 0, 0, 1⟩, ⟨3, 1, 2147483648, 1⟩] emptyMemory)) 2
      = [⟨5, 0, 0, 1⟩, ⟨3, 1, -2147483648, 1⟩] ∧
    (⟨3, 1, 2147483648, 1⟩ : Entry) ∉
      entries (insertionSort 2 (storeEntries [⟨5, 0, 0, 1⟩, ⟨3, 1, 2147483648, 1⟩] emptyMemory)) 2 := by
  decide

/-- What `insertionSort` does to the tuples in general: a rearrangement of the first
tuple and of the other tuples with their times converted to `int`. -/
theorem insertionSort_perm_keyOf (m : Nat) (s : Shared) :
    (entries (insertionSort (m + 1) s) (m + 1)).Perm
      (entryAt s 0 :: (entriesFrom s 1 m).map keyOf) := by
  rw [entries_insertionSort, entries_eq_entriesFrom, entriesFrom_succ]
  exact insertionSortList_perm _ _

/-- The statement of C10 for times that fit in an `int`: the tuples are only
rearranged. -/
theorem insertionSort_perm_of_int_times (n : Nat) (s : Shared)
    (h : ∀ k, 1 ≤ k → k < n → toInt (s.rankedTime k) = s.rankedTime k) :
    (entries (insertionSort n s) n).Perm (entries s n) := by
  cases n with
  | zero => simp [entries]
  | succ m =>
    refine (insertionSort_perm_keyOf m s).trans ?_
    rw [entries_eq_entriesFrom s (m + 1), entriesFrom_succ]
    have e : (entriesFrom s 1 m).map keyOf = entriesFrom s 1 m := by
      unfold entriesFrom
      rw [List.map_map]
      apply List.map_congr_left
      intro k hk
      have hk' := List.mem_range'_1.mp hk
      exact keyOf_eq_self _ (h k hk'.1 (by omega))
    rw [e]

/-! ## Incremental insertion and sorting from scratch (C2, C8, C9) -/

/-- Claim C2 (the code does otherwise): inserting `(bid 5, bidder 0, time 0)` and
then `(bid 3, bidder 1, time 2147483648)` gives a ranking whose second entry has
time `-2147483648`, which is not the list sorted from scratch. -/
theorem incremental_differs_from_scratch :
    rankingAfter emptyMemory [⟨0, 5, 0, 1⟩, ⟨1, 3, 2147483648, 1⟩]
      = [⟨5, 0, 0, 1⟩, ⟨3, 1, -2147483648, 1⟩] ∧
    sortFromScratch ([⟨0, 5, 0, 1⟩, ⟨1, 3, 2147483648, 1⟩].map Commit.entry)
      = [⟨5, 0, 0, 1⟩, ⟨3, 1, 2147483648, 1⟩] ∧
    rankingAfter emptyMemory [⟨0, 5, 0, 1⟩, ⟨1, 3, 2147483648, 1⟩]
      ≠ sortFromScratch ([⟨0, 5, 0, 1⟩, ⟨1, 3, 2147483648, 1⟩].map Commit.entry) := by
  decide

/-- Claim C8 (the code does otherwise): two entries with the same bid 5 and the
same commit time 2147483648, inserted as bidder 0 then bidder 1, end in the order
bidder 1, bidder 0. -/
theorem equal_entries_reordered :
    (rankingAfter emptyMemory [⟨0, 5, 2147483648, 1⟩, ⟨1, 5, 2147483648, 1⟩]).map Entry.bidder
      = [1, 0] ∧
    rankingAfter emptyMemory [⟨0, 5, 2147483648, 1⟩, ⟨1, 5, 2147483648, 1⟩]
      = [⟨5, 1, -2147483648, 1⟩, ⟨5, 0, 2147483648, 1⟩] := by
  decide

/-- Claim C9 (the code does otherwise): the entries `A = (bid 5, time 2147483648)` of
bidder 0 and `B = (bid 5, time 2147483647)` of bidder 1 have different `(bid, time)`
pairs; inserted as `A, B` they end as `[B, A]`, inserted as `B, A` they end as
`[A, B]` although `B` has the earlier commit time. -/
theorem order_depends_on_insertion_order :
    (rankingAfter emptyMemory [⟨0, 5, 2147483648, 1⟩, ⟨1, 5, 2147483647, 1⟩]).map Entry.bidder
      = [1, 0] ∧
    (rankingAfter emptyMemory [⟨1, 5, 2147483647, 1⟩, ⟨0, 5, 2147483648, 1⟩]).map Entry.bidder
      = [0, 1] ∧
    rankingAfter emptyMemory [⟨1, 5, 2147483647, 1⟩, ⟨0, 5, 2147483648, 1⟩]
      = [⟨5, 0, -2147483648, 1⟩, ⟨5, 1, 2147483647, 1⟩] := by
  decide

theorem entries_updateRanking (n i : Nat) (c : Commit) (s : Shared) (hi : c.bidderNumber = i) :
    entries (updateRanking (n + 1) i (commitBid c s)) (n + 1) = entries s n ++ [c.entry] := by
  subst hi
  rw [entries_succ]
  congr 1
  · apply entries_congr
    intro k hk
    have : k ≠ n := Nat.ne_of_lt hk
    simp [entryAt, updateRanking, commitBid, Function.update_noteq this]
  · simp [entryAt, updateRanking, commitBid, Commit.entry]

theorem rankingAfter_snoc (s : Shared) (l : List Commit) (c : Commit) :
    rankingAfter s (l ++ [c]) = insertionSortList (rankingAfter s l ++ [c.entry]) := by
  unfold rankingAfter
  rw [insertAll_snoc]
  simp only [insertCommit]
  rw [entries_insertionSort, entries_updateRanking _ _ c _ rfl]

theorem rankingAfter_eq_foldl (s : Shared) (l : List Commit)
    (h : ∀ c ∈ l, toInt c.time = c.time) :
    rankingAfter s l = (l.map Commit.entry).foldl (fun acc x => insertAfter x acc) [] := by
  induction l using List.reverseRecOn with
  | nil => rfl
  | append_singleton l c ih =>
    have hl : ∀ d ∈ l, toInt d.time = d.time := fun d hd => h d (List.mem_append_left _ hd)
    have hc : toInt c.time = c.time := h c (by simp)
    have hR : ∀ e ∈ rankingAfter s l, toInt e.time = e.time := by
      intro e he
      rw [ih hl] at he
      have := (foldl_insertAfter_perm (l.map Commit.entry) []).mem_iff.mp he
      simp only [List.nil_append, List.mem_map] at this
      obtain ⟨d, hd, rfl⟩ := this
      exact hl d hd
    rw [rankingAfter_snoc,
      insertionSortList_snoc (rankingAfter s l) c.entry (insertAll_sorted s l) hR hc, ih hl]
    simp [List.foldl_append]

/-- The statement of C2 for commit times that fit in an `int`: inserting one at a
time gives the list sorted from scratch. -/
theorem rankingAfter_eq_sortFromScratch (s : Shared) (l : List Commit)
    (h : ∀ c ∈ l, toInt c.time = c.time) :
    rankingAfter s l = sortFromScratch (l.map Commit.entry) := by
  rw [rankingAfter_eq_foldl s l h, foldl_insertAfter_eq_sortFromScratch]

/-- The statement of C8 for a commit time that fits in an `int`: entries with the
same bid and the same time stay in insertion order. -/
theorem rankingAfter_of_equal_keys (s : Shared) (l : List Commit) (bid time : Int)
    (ht : toInt time = time) (h : ∀ c ∈ l, c.bid = bid ∧ c.time = time) :
    rankingAfter s l = l.map Commit.entry := by
  rw [rankingAfter_eq_sortFromScratch s l (fun c hc => by rw [(h c hc).2]; exact ht)]
  unfold sortFromScratch
  apply List.Sorted.insertionSort_eq
  apply List.pairwise_of_forall_mem_list
  intro a ha b hb
  obtain ⟨c, hc, rfl⟩ := List.mem_map.mp ha
  obtain ⟨d, hd, rfl⟩ := List.mem_map.mp hb
  right
  simp [Commit.entry, (h c hc).1, (h c hc).2, (h d hd).1, (h d hd).2]

theorem rankingAfter_perm (s : Shared) (l : List Commit) (h : ∀ c ∈ l, toInt c.time = c.time) :
    (rankingAfter s l).Perm (l.map Commit.entry) := by
  rw [rankingAfter_eq_foldl s l h]
  simpa using foldl_insertAfter_perm (l.map Commit.entry) []

/-- The statement of C9 for commit times that fit in an `int`: with pairwise
different `(bid, time)` pairs the final ranking does not depend on the insertion
order. -/
theorem rankingAfter_order_independent (s : Shared) (l₁ l₂ : List Commit) (hp : l₁.Perm l₂)
    (h : ∀ c ∈ l₁, toInt c.time = c.time)
    (hk : (l₁.map (fun c => (c.bid, c.time))).Nodup) :
    rankingAfter s l₁ = rankingAfter s l₂ := by
  have h' : ∀ c ∈ l₂, toInt c.time = c.time := fun c hc => h c (hp.mem_iff.mpr hc)
  have p1 := rankingAfter_perm s l₁ h
  have p2 := rankingAfter_perm s l₂ h'
  apply sorted_perm_unique _ _ (p1.trans ((hp.map _).trans p2.symm)) (insertAll_sorted s l₁)
    (insertAll_sorted s l₂)
  intro a ha b hb hab hba
  obtain ⟨c, hc, rfl⟩ := List.mem_map.mp (p1.mem_iff.mp ha)
  obtain ⟨d, hd, rfl⟩ := List.mem_map.mp (p1.mem_iff.mp hb)
  have hkey : (c.bid, c.time) = (d.bid, d.time) := by
    unfold rankedBefore Commit.entry at hab hba
    simp only at hab hba
    have e1 : c.bid = d.bid := by omega
    have e2 : c.time = d.time := by omega
    rw [e1, e2]
  rw [List.inj_on_of_nodup_map hk hc hd hkey]

/-- The scenario of C9: bidders `A = (50, t)`, `C = (80, t+2)`, `B = (80, t+1)`, with
times that fit in an `int`, inserted in any order, end ranked `[B, C, A]`. -/
theorem rankingAfter_scenario (s : Shared) (t a b c : Int) (l : List Commit)
    (h0 : toInt t = t) (h1 : toInt (t + 1) = t + 1) (h2 : toInt (t + 2) = t + 2)
    (hl : l.Perm [⟨0, 50, t, a⟩, ⟨1, 80, t + 2, c⟩, ⟨2, 80, t + 1, b⟩]) :
    rankingAfter s l = [⟨80, 2, t + 1, b⟩, ⟨80, 1, t + 2, c⟩, ⟨50, 0, t, a⟩] := by
  have hr : ∀ d ∈ l, toInt d.time = d.time := by
    intro d hd
    have := hl.mem_iff.mp hd
    simp only [List.mem_cons, List.mem_singleton, List.not_mem_nil, or_false] at this
    rcases this with e | e | e <;> subst e <;> assumption
  have hk : (l.map (fun d => (d.bid, d.time))).Nodup := by
    rw [(hl.map _).nodup_iff]
    simp
  rw [rankingAfter_order_independent s l _ hl hr hk,
    rankingAfter_eq_sortFromScratch s _ (fun d hd => hr d (hl.mem_iff.mpr hd))]
  simp [sortFromScratch, List.insertionSort, List.orderedInsert, rankedBefore, Commit.entry]

/-! ## The coordinator: no bidder is ranked twice (C3) -/

theorem rankedIds_eq (c : Coordinator) :
    rankedIds c = (entries c.shared c.rankingSize).map Entry.bidder := by
  simp [rankedIds, entries, entryAt, List.map_map, Function.comp_def]

theorem rankedIds_insertionSort (s : Shared) (n r : Nat) :
    (rankedIds ⟨insertionSort n s, n, r⟩).Perm (rankedIds ⟨s, n, r⟩) := by
  rw [rankedIds_eq, rankedIds_eq]
  simp only
  rw [entries_insertionSort]
  exact insertionSortList_bidders _

theorem rankedOnce_insertionSort (s : Shared) (n r r1 : Nat) (h : RankedOnce ⟨s, n, r⟩) :
    RankedOnce ⟨insertionSort n s, n, r1⟩ := by
  have hp : (rankedIds ⟨insertionSort n s, n, r1⟩).Perm (rankedIds ⟨s, n, r⟩) :=
    rankedIds_insertionSort s n r
  refine ⟨hp.nodup_iff.mpr h.1, ?_⟩
  intro b hb
  have := h.2 b (hp.mem_iff.mp hb)
  simpa [isRanked_insertionSort] using this

theorem rankedIds_updateRanking (s : Shared) (n r r1 : Nat) (i : Nat) :
    rankedIds ⟨updateRanking (n + 1) i s, n + 1, r1⟩ = rankedIds ⟨s, n, r⟩ ++ [(i : Int)] := by
  simp only [rankedIds, List.range_succ, List.map_append, List.map_cons, List.map_nil,
    updateRanking, Nat.add_sub_cancel, Function.update_same]
  congr 1
  apply List.map_congr_left
  intro k hk
  have : k ≠ n := Nat.ne_of_lt (List.mem_range.mp hk)
  simp [Function.update_noteq this]

theorem rankedOnce_updateRanking (s : Shared) (n r r1 : Nat) (i : Nat)
    (h : RankedOnce ⟨s, n, r⟩) (hi : s.isRanked i = 0) :
    RankedOnce ⟨updateRanking (n + 1) i s, n + 1, r1⟩ := by
  have hnot : (i : Int) ∉ rankedIds ⟨s, n, r⟩ := by
    intro hm
    obtain ⟨i1, h1, h2⟩ := h.2 _ hm
    have : i = i1 := by exact_mod_cast h1
    subst this
    exact h2 hi
  constructor
  · rw [rankedIds_updateRanking s n r r1 i]
    exact List.Nodup.append h.1 (List.nodup_singleton _) (by simpa using hnot)
  · intro b hb
    rw [rankedIds_updateRanking s n r r1 i] at hb
    rcases List.mem_append.mp hb with hb | hb
    · obtain ⟨i1, h1, h2⟩ := h.2 b hb
      refine ⟨i1, h1, ?_⟩
      show Function.update s.isRanked i TRUE i1 ≠ 0
      by_cases e : i1 = i
      · subst e; simp [TRUE]
      · rw [Function.update_noteq e]; exact h2
    · refine ⟨i, by simpa using hb, ?_⟩
      show Function.update s.isRanked i TRUE i ≠ 0
      simp [TRUE]

theorem rankedOnce_congr {c d : Coordinator} (h : RankedOnce c)
    (h1 : d.shared.rankedBidders = c.shared.rankedBidders)
    (h2 : d.shared.isRanked = c.shared.isRanked) (h3 : d.rankingSize = c.rankingSize) :
    RankedOnce d := by
  unfold RankedOnce rankedIds at *
  rw [h1, h2, h3]
  exact h

/-- One iteration of the `for` loop of `startAuction` keeps `RankedOnce`. -/
theorem rankedOnce_auctionBody (env : Nat → Shared) (c : Coordinator) (i : Nat)
    (h : RankedOnce c) : RankedOnce (auctionBody env c i) := by
  unfold auctionBody
  simp only
  split_ifs with h1 h2
  · apply rankedOnce_insertionSort _ _ (c.reads + 2)
    apply rankedOnce_updateRanking _ _ c.reads
    · exact rankedOnce_congr h rfl rfl rfl
    · exact h1.2
  · apply rankedOnce_insertionSort _ _ (c.reads + 2)
    exact rankedOnce_congr h rfl rfl rfl
  · apply rankedOnce_insertionSort _ _ (c.reads + 2)
    exact rankedOnce_congr h rfl rfl rfl

theorem rankedOnce_foldl (env : Nat → Shared) (l : List Nat) :
    ∀ c : Coordinator, RankedOnce c → RankedOnce (l.foldl (auctionBody env) c) := by
  induction l with
  | nil => intro c h; exact h
  | cons i l ih => intro c h; exact ih _ (rankedOnce_auctionBody env c i h)

theorem rankedOnce_forLoop (env : Nat → Shared) (j : Nat) (c : Coordinator)
    (h : RankedOnce c) : RankedOnce (forLoop env j c) :=
  rankedOnce_foldl env _ _ h

theorem rankedOnce_beginPass (c : Coordinator) (h : RankedOnce c) : RankedOnce (beginPass c) :=
  rankedOnce_congr h rfl rfl rfl

theorem rankedOnce_auctionPass (env : Nat → Shared) (n : Nat) (c : Coordinator)
    (h : RankedOnce c) : RankedOnce (auctionPass env n c) :=
  rankedOnce_forLoop env n _ (rankedOnce_beginPass c h)

theorem rankedOnce_passes (env : Nat → Shared) (n : Nat) (s : Shared) (k : Nat) :
    RankedOnce (passes env n (coordinatorStart s) k) := by
  induction k with
  | zero => exact ⟨by simp [passes, rankedIds, coordinatorStart], by simp [passes, rankedIds, coordinatorStart]⟩
  | succ k ih => exact rankedOnce_auctionPass env n _ ih

/-- Claim C3: in every state reached by any number `k` of passes of `startAuction`
from the initialised state, and after any number `j` of iterations of the next
pass, whatever the bidders' memory `env` shows at each look, no bidder number
occurs twice in `rankedBidders[0..rankingSize)`. -/
theorem no_bidder_ranked_twice (env : Nat → Shared) (numOfBidders : Nat)
    (bidsPerBidder maxBidValue maxSleepTime : Int) (s : Shared) (k j : Nat) :
    (rankedIds (passes env numOfBidders (coordinatorStart
      (initializeAuction numOfBidders bidsPerBidder maxBidValue maxSleepTime s)) k)).Nodup ∧
    (rankedIds (forLoop env j (beginPass (passes env numOfBidders (coordinatorStart
      (initializeAuction numOfBidders bidsPerBidder maxBidValue maxSleepTime s)) k)))).Nodup :=
  ⟨(rankedOnce_passes env numOfBidders _ k).1,
    (rankedOnce_forLoop env j _
      (rankedOnce_beginPass _ (rankedOnce_passes env numOfBidders _ k))).1⟩

/-! ## The coordinator: the exit of the loop (C5) -/

/-- Claim C5 (the code does otherwise): one bidder who commits between the test of
line 178 and the test of line 182 of the same iteration. The first look shows
`committed[0]` false, every later look shows it true; the loop of `startAuction`
exits after this pass with `rankingSize = 0` and `isRanked[0]` false. -/
theorem loop_exits_with_unranked_bidder :
    (startAuction (bidderView (fun _ => 7) 1000 0 oneBidder (fun t => if t = 0 then 0 else 6)) 1 2
        (coordinatorStart oneBidder)).map
      (fun c => (c.shared.auctionFinished, c.rankingSize, c.shared.isRanked 0,
        c.shared.committed 0))
      = some (1, 0, 0, 1) ∧
    (bidderView (fun _ => 7) 1000 0 oneBidder (fun t => if t = 0 then 0 else 6) 0).committed 0 = 0 ∧
    ∀ t, (bidderView (fun _ => 7) 1000 0 oneBidder (fun t => if t = 0 then 0 else 6)
      (t + 1)).committed 0 = 1 := by
  refine ⟨by decide, by decide, ?_⟩
  intro t
  simp only [bidderView, Nat.succ_ne_zero, if_false]
  decide

theorem covered_insertionSort (N : Nat) (s : Shared) (n r : Nat) (h : Covered N ⟨s, n, r⟩) :
    Covered N ⟨insertionSort n s, n, r⟩ := by
  have hp : (rankedIds ⟨insertionSort n s, n, r⟩).Perm (rankedIds ⟨s, n, r⟩) :=
    rankedIds_insertionSort s n r
  refine ⟨rankedOnce_insertionSort s n r r h.1, ?_, ?_, h.2.2.2⟩
  · intro b hb
    exact h.2.1 b (hp.mem_iff.mp hb)
  · intro i hi hr
    rw [isRanked_insertionSort] at hr
    exact hp.mem_iff.mpr (h.2.2.1 i hi hr)

theorem covered_updateRanking (N : Nat) (s : Shared) (n r : Nat) (i : Nat) (hiN : i < N)
    (h : Covered N ⟨s, n, r⟩) (hi : s.isRanked i = 0) :
    Covered N ⟨updateRanking (n + 1) i s, n + 1, r + 2⟩ := by
  refine ⟨rankedOnce_updateRanking s n r (r + 2) i h.1 hi, ?_, ?_, ?_⟩
  · intro b hb
    rw [rankedIds_updateRanking s n r (r + 2) i] at hb
    rcases List.mem_append.mp hb with hb | hb
    · exact h.2.1 b hb
    · exact ⟨i, hiN, by simpa using hb⟩
  · intro k hk hr
    rw [rankedIds_updateRanking s n r (r + 2) i]
    by_cases e : k = i
    · subst e; simp
    · have hr' : s.isRanked k ≠ 0 := by
        have : (updateRanking (n + 1) i s).isRanked k = s.isRanked k := by
          simp [updateRanking, Function.update_noteq e]
        rwa [this] at hr
      exact List.mem_append_left _ (h.2.2.1 k hk hr')
  · obtain ⟨m, hm⟩ := h.2.2.2
    exact ⟨m + 1, by simp only at hm ⊢; omega⟩

theorem covered_congr {N : Nat} {c d : Coordinator} (h : Covered N c)
    (h1 : d.shared.rankedBidders = c.shared.rankedBidders)
    (h2 : d.shared.isRanked = c.shared.isRanked) (h3 : d.rankingSize = c.rankingSize)
    (h4 : d.reads = c.reads ∨ d.reads = c.reads + 2) : Covered N d := by
  have hid : rankedIds d = rankedIds c := by unfold rankedIds; rw [h1, h3]
  refine ⟨rankedOnce_congr h.1 h1 h2 h3, ?_, ?_, ?_⟩
  · rw [hid]; exact h.2.1
  · rw [hid, h2]; exact h.2.2.1
  · obtain ⟨m, hm⟩ := h.2.2.2
    rcases h4 with h4 | h4
    · exact ⟨m, by omega⟩
    · exact ⟨m + 1, by omega⟩

theorem covered_auctionBody (env : Nat → Shared) (N : Nat) (c : Coordinator) (i : Nat)
    (hi : i < N) (h : Covered N c) : Covered N (auctionBody env c i) := by
  unfold auctionBody
  simp only
  split_ifs with h1 h2
  · apply covered_insertionSort
    apply covered_updateRanking N _ _ c.reads i hi
    · exact covered_congr h rfl rfl rfl (Or.inl rfl)
    · exact h1.2
  · apply covered_insertionSort
    exact covered_congr h rfl rfl rfl (Or.inr rfl)
  · apply covered_insertionSort
    exact covered_congr h rfl rfl rfl (Or.inr rfl)

theorem auctionBody_finished (env : Nat → Shared) (c : Coordinator) (i : Nat)
    (h : (auctionBody env c i).shared.auctionFinished ≠ 0) : c.shared.auctionFinished ≠ 0 := by
  unfold auctionBody at h
  simp only at h
  split_ifs at h with h1 h2
  · rwa [auctionFinished_insertionSort] at h
  · rw [auctionFinished_insertionSort] at h
    exact absurd rfl h
  · rwa [auctionFinished_insertionSort] at h

theorem auctionBody_isRanked_mono (env : Nat → Shared) (c : Coordinator) (i k : Nat)
    (h : c.shared.isRanked k ≠ 0) : (auctionBody env c i).shared.isRanked k ≠ 0 := by
  unfold auctionBody
  simp only
  split_ifs with h1 h2
  · rw [isRanked_insertionSort]
    show Function.update c.shared.isRanked i TRUE k ≠ 0
    by_cases e : k = i
    · subst e; simp [TRUE]
    · rwa [Function.update_noteq e]
  · rw [isRanked_insertionSort]; exact h
  · rw [isRanked_insertionSort]; exact h

theorem auctionBody_ranks (env : Nat → Shared) (c : Coordinator) (i : Nat)
    (hlooks : (env (c.reads + 1)).committed i = (env c.reads).committed i)
    (h : (auctionBody env c i).shared.auctionFinished ≠ 0) :
    (auctionBody env c i).shared.isRanked i ≠ 0 := by
  unfold auctionBody at h ⊢
  simp only at h ⊢
  split_ifs at h ⊢ with h1 h2
  · rw [isRanked_insertionSort]
    show Function.update c.shared.isRanked i TRUE i ≠ 0
    simp [TRUE]
  · rw [auctionFinished_insertionSort] at h
    exact absurd rfl h
  · rw [isRanked_insertionSort]
    show c.shared.isRanked i ≠ 0
    intro hz
    have h2' : (env (c.reads + 1)).committed i ≠ 0 := h2
    rw [hlooks] at h2'
    exact h1 ⟨h2', hz⟩

theorem forLoop_succ (env : Nat → Shared) (j : Nat) (c : Coordinator) :
    forLoop env (j + 1) c = auctionBody env (forLoop env j c) j := by
  simp [forLoop, List.range_succ, List.foldl_append]

theorem forLoop_invariant (env : Nat → Shared) (N : Nat)
    (hlooks : ∀ m i, (env (2 * m + 1)).committed i = (env (2 * m)).committed i)
    (c : Coordinator) (hc : Covered N c) (j : Nat) (hj : j ≤ N) :
    Covered N (forLoop env j c) ∧
      ((forLoop env j c).shared.auctionFinished ≠ 0 →
        ∀ i, i < j → (forLoop env j c).shared.isRanked i ≠ 0) := by
  induction j with
  | zero => exact ⟨hc, fun _ i hi => absurd hi (Nat.not_lt_zero i)⟩
  | succ j ih =>
    obtain ⟨h1, h2⟩ := ih (by omega)
    rw [forLoop_succ]
    refine ⟨covered_auctionBody env N _ j (by omega) h1, ?_⟩
    intro hf i hi
    by_cases e : i = j
    · subst e
      obtain ⟨m, hm⟩ := h1.2.2.2
      apply auctionBody_ranks env _ i _ hf
      rw [hm]
      exact hlooks m i
    · exact auctionBody_isRanked_mono env _ j i
        (h2 (auctionBody_finished env _ j hf) i (by omega))

theorem passes_succ_left (env : Nat → Shared) (N : Nat) (k : Nat) :
    ∀ c : Coordinator, passes env N c (k + 1) = passes env N (auctionPass env N c) k := by
  induction k with
  | zero => intro c; rfl
  | succ k ih => intro c; rw [passes, ih, ← passes]

/-- A result of `startAuction` is the state after some number of passes, with
`auctionFinished` set. -/
theorem startAuction_some (env : Nat → Shared) (N : Nat) (fuel : Nat) :
    ∀ c d : Coordinator, startAuction env N fuel c = some d →
      d.shared.auctionFinished ≠ 0 ∧
        ∃ k, d = passes env N c k ∧ (c.shared.auctionFinished = 0 → 0 < k) := by
  induction fuel with
  | zero => intro c d h; simp [startAuction] at h
  | succ fuel ih =>
    intro c d h
    rw [startAuction] at h
    split_ifs at h with h0
    · obtain ⟨h1, k, h2, _⟩ := ih _ _ h
      exact ⟨h1, k + 1, by rw [passes_succ_left]; exact h2, fun _ => Nat.succ_pos k⟩
    · simp only [Option.some.injEq] at h
      subst h
      exact ⟨h0, 0, rfl, fun h => absurd h h0⟩

theorem covered_beginPass (N : Nat) (c : Coordinator) (h : Covered N c) :
    Covered N (beginPass c) :=
  covered_congr h rfl rfl rfl (Or.inl rfl)

theorem covered_passes (env : Nat → Shared) (N : Nat)
    (hlooks : ∀ m i, (env (2 * m + 1)).committed i = (env (2 * m)).committed i)
    (c : Coordinator) (hc : Covered N c) (k : Nat) : Covered N (passes env N c k) := by
  induction k with
  | zero => exact hc
  | succ k ih =>
    exact (forLoop_invariant env N hlooks _ (covered_beginPass N _ ih) N (Nat.le_refl N)).1

theorem covered_start (N : Nat) (b m t : Int) (s : Shared) :
    Covered N (coordinatorStart (initializeAuction N b m t s)) := by
  refine ⟨⟨by simp [rankedIds, coordinatorStart], by simp [rankedIds, coordinatorStart]⟩,
    by simp [rankedIds, coordinatorStart], ?_, ⟨0, rfl⟩⟩
  intro i hi hr
  simp [coordinatorStart, initializeAuction, hi, FALSE] at hr

/-- The statement of C5 when both looks of each iteration show the same
`committed[i]`: at the exit of the loop every bidder is ranked, `rankingSize` is
`numOfBidders` and the ranked numbers are `0 .. numOfBidders-1`. -/
theorem startAuction_ranks_all_of_stable_looks (env : Nat → Shared) (N : Nat) (b m t : Int)
    (s : Shared) (fuel : Nat) (d : Coordinator)
    (hlooks : ∀ m i, (env (2 * m + 1)).committed i = (env (2 * m)).committed i)
    (h : startAuction env N fuel (coordinatorStart (initializeAuction N b m t s)) = some d) :
    d.rankingSize = N ∧ (∀ i, i < N → d.shared.isRanked i ≠ 0) ∧
      (rankedIds d).Perm ((List.range N).map (fun i : Nat => (i : Int))) := by
  obtain ⟨hf, k, hk, hpos⟩ := startAuction_some env N fuel _ _ h
  have hk0 : 0 < k := hpos rfl
  obtain ⟨k', rfl⟩ : ∃ k', k = k' + 1 := ⟨k - 1, by omega⟩
  have hcov := covered_passes env N hlooks _ (covered_start N b m t s) k'
  have hinv := forLoop_invariant env N hlooks _ (covered_beginPass N _ hcov) N (Nat.le_refl N)
  have hd : d = forLoop env N (beginPass
      (passes env N (coordinatorStart (initializeAuction N b m t s)) k')) := hk
  rw [← hd] at hinv
  obtain ⟨hc, hall⟩ := hinv
  have hranked := hall hf
  have hperm : (rankedIds d).Perm ((List.range N).map (fun i : Nat => (i : Int))) := by
    apply (List.perm_ext_iff_of_nodup hc.1.1 ?_).mpr
    · intro a
      constructor
      · intro ha
        obtain ⟨i, hi, rfl⟩ := hc.2.1 a ha
        exact List.mem_map.mpr ⟨i, List.mem_range.mpr hi, rfl⟩
      · intro ha
        obtain ⟨i, hi, rfl⟩ := List.mem_map.mp ha
        exact hc.2.2.1 i (List.mem_range.mp hi) (hranked i (List.mem_range.mp hi))
    · exact (List.nodup_range N).map (fun a b hab => by exact_mod_cast hab)
  refine ⟨?_, hranked, hperm⟩
  have := hperm.length_eq
  simpa [rankedIds] using this

/-! ## The bidder thread (C4, C6, C7) -/

theorem tmod_two (n : Nat) : Int.tmod (n : Int) 2 = 0 ∨ Int.tmod (n : Int) 2 = 1 := by
  rw [Int.tmod_eq_emod (by omega) (by omega)]
  omega

/-- Every statement of `bidding(id)` keeps `bidInv`. -/
theorem bidInv_step (rand : Nat → Nat) (now : Int) (B : Int) (id : Nat) (b : Bidder) (L : Nat)
    (h : bidInv B id b L) :
    bidInv B id (bidStep rand now id b) (L + if b.pc = Pc.sleep then 1 else 0) := by
  obtain ⟨pc, ic, rc, mem⟩ := b
  cases pc <;> simp only [bidInv, bidStep] at h ⊢
  case whileTest => split_ifs with ht <;> simp only [bidInv] <;> simp at * <;> omega
  case ifForced => split_ifs with ht <;> simp only [bidInv] <;> simp at * <;> omega
  case draw =>
    have := tmod_two (rand rc)
    simp at *
    omega
  all_goals (simp [TRUE] at *; omega)

/-- Every statement of `bidding(id)` before the exit lowers `bidMeasure`. -/
theorem bidMeasure_step (rand : Nat → Nat) (now : Int) (B : Int) (id : Nat) (b : Bidder) (L : Nat)
    (h : bidInv B id b L) (hpc : b.pc ≠ Pc.exited) :
    bidMeasure id (bidStep rand now id b) + 1 ≤ bidMeasure id b := by
  obtain ⟨pc, ic, rc, mem⟩ := b
  cases pc <;> simp only [bidInv, bidStep] at h ⊢
  case whileTest => split_ifs with ht <;> simp only [bidMeasure] <;> simp at *
  case ifForced => split_ifs with ht <;> simp only [bidMeasure] <;> simp at *
  case exited => exact absurd rfl hpc
  all_goals (simp [bidMeasure] at *; try omega)

theorem bidMeasure_exited (id : Nat) (b : Bidder) (h : bidMeasure id b = 0) :
    b.pc = Pc.exited := by
  obtain ⟨pc, ic, rc, mem⟩ := b
  cases pc <;> simp [bidMeasure] at h ⊢

theorem loopIterations_succ (rand : Nat → Nat) (now : Int) (id : Nat) (s : Shared) (n : Nat) :
    loopIterations rand now id s (n + 1)
      = loopIterations rand now id s n + if (bidRun rand now id s n).pc = Pc.sleep then 1 else 0 := by
  unfold loopIterations
  rw [List.range_succ, List.filter_append, List.length_append]
  by_cases h : (bidRun rand now id s n).pc = Pc.sleep <;> simp [h]

theorem bidInv_run (rand : Nat → Nat) (now : Int) (id : Nat) (s : Shared)
    (h1 : 1 ≤ s.bidsPerBidder) (h4 : s.bidCount id = 0) (h5 : s.committed id = 0) (n : Nat) :
    bidInv s.bidsPerBidder id (bidRun rand now id s n) (loopIterations rand now id s n) := by
  induction n with
  | zero =>
    simp [bidRun, bidderStart, bidInv, loopIterations, h4, h5]
    omega
  | succ n ih =>
    rw [loopIterations_succ, bidRun]
    exact bidInv_step rand now _ id _ _ ih

theorem bidMeasure_run (rand : Nat → Nat) (now : Int) (id : Nat) (s : Shared)
    (h1 : 1 ≤ s.bidsPerBidder) (h4 : s.bidCount id = 0) (h5 : s.committed id = 0) (n : Nat) :
    bidMeasure id (bidRun rand now id s n) ≤ 6 * s.bidsPerBidder.toNat - n := by
  induction n with
  | zero =>
    simp [bidRun, bidderStart, bidMeasure, h4]
    omega
  | succ n ih =>
    rw [bidRun]
    by_cases hpc : (bidRun rand now id s n).pc = Pc.exited
    · have : bidStep rand now id (bidRun rand now id s n) = bidRun rand now id s n := by
        simp [bidStep, hpc]
      rw [this]
      have : bidMeasure id (bidRun rand now id s n) = 0 := by simp [bidMeasure, hpc]
      omega
    · have := bidMeasure_step rand now _ id _ _ (bidInv_run rand now id s h1 h4 h5 n) hpc
      omega

theorem bidCount_le_of_bidInv (B : Int) (id : Nat) (b : Bidder) (L : Nat)
    (h : bidInv B id b L) : b.mem.bidCount id ≤ B ∧ (L : Int) ≤ B - 1 := by
  obtain ⟨pc, ic, rc, mem⟩ := b
  cases pc <;> simp only [bidInv] at h <;> dsimp only <;> omega

/-- Claim C4: for a configuration with `bidsPerBidder ≥ 1`, `maxBidValue > 0` and
`maxSleepTime ≥ 1` and any results of `rand()`, `bidding(id)` started with
`bidCount[id] = 0` and `committed[id]` false has exited after `6 * bidsPerBidder`
statements, with `committed[id]` true and `1 ≤ bidCount[id] ≤ bidsPerBidder`; it
begins at most `bidsPerBidder - 1` loop iterations, and `bidCount[id] ≤ bidsPerBidder`
holds in every state of the run. -/
theorem bidding_commits_within_limit (rand : Nat → Nat) (now : Int) (id : Nat) (s : Shared)
    (h1 : 1 ≤ s.bidsPerBidder) (_h2 : 0 < s.maxBidValue) (_h3 : 1 ≤ s.maxSleepTime)
    (h4 : s.bidCount id = 0) (h5 : s.committed id = 0) :
    (∀ n, 6 * s.bidsPerBidder.toNat ≤ n →
      (bidRun rand now id s n).pc = Pc.exited ∧
      (bidRun rand now id s n).mem.committed id = TRUE ∧
      1 ≤ (bidRun rand now id s n).mem.bidCount id ∧
      (bidRun rand now id s n).mem.bidCount id ≤ s.bidsPerBidder) ∧
    (∀ n, (loopIterations rand now id s n : Int) ≤ s.bidsPerBidder - 1) ∧
    (∀ n, (bidRun rand now id s n).mem.bidCount id ≤ s.bidsPerBidder) := by
  refine ⟨?_, ?_, ?_⟩
  · intro n hn
    have hm := bidMeasure_run rand now id s h1 h4 h5 n
    have hpc : (bidRun rand now id s n).pc = Pc.exited := bidMeasure_exited id _ (by omega)
    have hi := bidInv_run rand now id s h1 h4 h5 n
    unfold bidInv at hi
    rw [hpc] at hi
    simp only at hi
    exact ⟨hpc, hi.2.2.2.2.2, hi.2.2.1, hi.2.2.2.1⟩
  · intro n
    exact (bidCount_le_of_bidInv _ id _ _ (bidInv_run rand now id s h1 h4 h5 n)).2
  · intro n
    exact (bidCount_le_of_bidInv _ id _ _ (bidInv_run rand now id s h1 h4 h5 n)).1

/-- Witness of C4: one bidder with three bids allowed, `rand()` returning 0, 1, 2, ... -/
theorem bidding_commits_within_limit_witness :
    (1 ≤ threeBids.bidsPerBidder ∧ 0 < threeBids.maxBidValue ∧ 1 ≤ threeBids.maxSleepTime ∧
      threeBids.bidCount 0 = 0 ∧ threeBids.committed 0 = 0) ∧
    (bidRun (fun k => k) 1000 0 threeBids 18).pc = Pc.exited ∧
    (bidRun (fun k => k) 1000 0 threeBids 18).mem.committed 0 = TRUE :=
  ⟨by decide,
    ((bidding_commits_within_limit (fun k => k) 1000 0 threeBids (by decide) (by decide)
      (by decide) (by decide) (by decide)).1 18 (by decide)).1,
    ((bidding_commits_within_limit (fun k => k) 1000 0 threeBids (by decide) (by decide)
      (by decide) (by decide) (by decide)).1 18 (by decide)).2.1⟩

/-- Claim C6 (the code does otherwise): with one bid allowed, after the fourth
statement of `bidding(0)` the flag `committed[0]` is true while `bidTime[0]` still
holds the sentinel `-1`; the time is written two statements later. -/
theorem committed_before_time_written (rand : Nat → Nat) (now : Int) :
    (bidRun rand now 0 oneBidder 4).mem.committed 0 = TRUE ∧
    (bidRun rand now 0 oneBidder 4).mem.bidTime 0 = -1 ∧
    (bidRun rand now 0 oneBidder 6).pc = Pc.exited ∧
    (bidRun rand now 0 oneBidder 6).mem.bidTime 0 = now := by
  refine ⟨rfl, rfl, rfl, rfl⟩

/-- Claim C7 (the code does otherwise): one bidder, one bid allowed; the
coordinator looks at the bidder's memory right after `committed[0] = TRUE` (four
statements of `bidding(0)`) and ranks it. Both threads finish, the ranking has one
entry, and its time and bid count are `-1` and `0` while the bidder ends with
`bidTime[0] = 1000` and `bidCount[0] = 1`. -/
theorem single_bidder_snapshot_stale :
    (startAuction (bidderView (fun _ => 7) 1000 0 oneBidder (fun t => if t < 2 then 4 else 6)) 1 2
        (coordinatorStart oneBidder)).map
      (fun c => (c.shared.auctionFinished, c.rankingSize, c.shared.rankedBidders 0,
        c.shared.ranking 0, c.shared.rankedTime 0, c.shared.rankedBidCount 0))
      = some (1, 1, 0, 7, -1, 0) ∧
    (bidRun (fun _ => 7) 1000 0 oneBidder 6).pc = Pc.exited ∧
    (bidRun (fun _ => 7) 1000 0 oneBidder 6).mem.bid 0 = 7 ∧
    (bidRun (fun _ => 7) 1000 0 oneBidder 6).mem.bidTime 0 = 1000 ∧
    (bidRun (fun _ => 7) 1000 0 oneBidder 6).mem.bidCount 0 = 1 := by
  decide

/-- The statement of C7 when the coordinator looks only after `bidding(0)` has
exited (memory `m`, with `committed[0]` set): the ranking has one entry, the
snapshot of bidder 0 in `m`. -/
theorem single_bidder_ranked_after_exit (m s : Shared) (hc : m.committed 0 ≠ 0)
    (hf : s.auctionFinished = 0) (hr : s.isRanked 0 = 0) :
    ∃ c, startAuction (fun _ => m) 1 2 (coordinatorStart s) = some c ∧ c.rankingSize = 1 ∧
      entryAt c.shared 0 = ⟨m.bid 0, 0, m.bidTime 0, m.bidCount 0⟩ := by
  have h1 : auctionPass (fun _ => m) 1 (coordinatorStart s)
      = ⟨insertionSort 1 (updateRanking 1 0 (observe m (observe m (beginPass (coordinatorStart s)).shared))),
          1, 2⟩ := by
    simp [auctionPass, forLoop, List.range_succ, auctionBody, beginPass, coordinatorStart, observe,
      hc, hr]
  refine ⟨⟨insertionSort 1 (updateRanking 1 0
    (observe m (observe m (beginPass (coordinatorStart s)).shared))), 1, 2⟩, ?_, ?_, ?_⟩
  · rw [startAuction, if_pos (by simpa [coordinatorStart] using hf), h1, startAuction,
      if_neg (by simp [auctionFinished_insertionSort, updateRanking, observe, beginPass, TRUE])]
  · rfl
  · simp [insertionSort, entryAt, updateRanking, observe]

end Auction
